import Mathlib

/-!
Verification of the image sequencing engine: row blank detection, edge
fingerprinting, the pairwise difference metric and the ordering decision
procedure (`findOptimalOrder`), shallowly embedded from the JavaScript
source. JavaScript numbers that can take the values `NaN` or `Infinity`
in this code (pixel difference quotients and the running best score of
the fallback search) are modelled by `JSNum`, an extended rational type;
all integer pixel arithmetic is exact, so rationals are faithful for the
comparisons the code performs. The square root in `colorDistance` is
eliminated by comparing squared distances: for nonnegative reals,
sqrt d > 35 holds exactly when d > 1225, which is how `isRowBlank`
is embedded below.
-/

/-- Kernel-computable rational addition; equal to `+` on `ℚ` by
`qAdd_eq` below, but stated through `mkRat` so that concrete instances
of the embedded code evaluate by `decide`. -/
def qAdd (a b : ℚ) : ℚ :=
  mkRat (a.num * b.den + b.num * a.den) (a.den * b.den)

theorem qAdd_eq (a b : ℚ) : qAdd a b = a + b := by
  rw [qAdd, Rat.mkRat_eq_div]
  have h1 : (a.num : ℚ) = a * a.den := (div_eq_iff (by positivity)).mp (Rat.num_div_den a)
  have h2 : (b.num : ℚ) = b * b.den := (div_eq_iff (by positivity)).mp (Rat.num_div_den b)
  push_cast
  rw [h1, h2, div_eq_iff (by positivity)]
  ring

/-- Model of a JavaScript number as used in this program: either `NaN`,
positive or negative infinity, or an exact rational value. -/
inductive JSNum where
  | nan : JSNum
  | inf : JSNum
  | negInf : JSNum
  | val : ℚ → JSNum
deriving DecidableEq, Repr

namespace JSNum

/-- JavaScript addition on the modelled numbers: `NaN` is absorbing,
infinities of opposite sign give `NaN`, otherwise an infinity is
absorbing, and finite values add exactly. -/
def add : JSNum → JSNum → JSNum
  | nan, _ => nan
  | _, nan => nan
  | inf, negInf => nan
  | negInf, inf => nan
  | inf, _ => inf
  | _, inf => inf
  | negInf, _ => negInf
  | _, negInf => negInf
  | val a, val b => val (qAdd a b)

/-- JavaScript strict comparison `x < y`: false whenever either side is
`NaN`, and with infinities ordered as expected. -/
def lt : JSNum → JSNum → Bool
  | nan, _ => false
  | _, nan => false
  | inf, _ => false
  | _, inf => true
  | negInf, negInf => false
  | negInf, val _ => true
  | val _, negInf => false
  | val a, val b => decide (a < b)

/-- JavaScript comparison `x <= y`: false whenever either side is `NaN`. -/
def le : JSNum → JSNum → Bool
  | nan, _ => false
  | _, nan => false
  | inf, inf => true
  | inf, _ => false
  | _, inf => true
  | negInf, _ => true
  | val _, negInf => false
  | val a, val b => decide (a ≤ b)

/-- Predicate selecting finite (rational) values. -/
def isVal : JSNum → Bool
  | val _ => true
  | _ => false

theorem isVal_iff {x : JSNum} : x.isVal = true ↔ ∃ q : ℚ, x = val q := by
  cases x <;> simp [isVal]

theorem add_val_val (a b : ℚ) : (val a).add (val b) = val (a + b) := by
  simp [add, qAdd_eq]

theorem zero_add_eq (d : JSNum) : (val 0).add d = d := by
  cases d <;> simp [add, qAdd_eq]

theorem lt_trans_js {a b c : JSNum} (h1 : lt a b = true) (h2 : lt b c = true) :
    lt a c = true := by
  cases a <;> cases b <;> cases c <;> simp_all [lt]
  exact lt_trans h1 h2

theorem lt_of_not_lt_of_lt {a b s : JSNum} (ha : a.isVal = true)
    (h1 : lt a s = false) (h2 : lt b s = true) : lt b a = true := by
  cases a <;> cases b <;> cases s <;> simp_all [lt, isVal]
  exact lt_of_lt_of_le h2 h1

theorem le_of_not_lt {a b : JSNum} (ha : a.isVal = true) (hb : b.isVal = true)
    (h : lt a b = false) : le b a = true := by
  cases a <;> cases b <;> simp_all [lt, le, isVal]

theorem le_refl_val {a : JSNum} (ha : a.isVal = true) : le a a = true := by
  cases a <;> simp_all [le, isVal]

theorem le_of_lt_js {a b : JSNum} (h : lt a b = true) : le a b = true := by
  cases a <;> cases b <;> simp_all [lt, le]
  exact le_of_lt h

theorem ne_of_lt_js {a b : JSNum} (h : lt a b = true) : a ≠ b := by
  cases a <;> cases b <;> simp_all [lt]
  exact ne_of_lt h

theorem lt_val_inf (q : ℚ) : lt (val q) inf = true := rfl

theorem isVal_add {a b : JSNum} (ha : a.isVal = true) (hb : b.isVal = true) :
    (a.add b).isVal = true := by
  cases a <;> cases b <;> simp_all [add, isVal]

end JSNum

/-- Model of the JavaScript division `num / den` appearing in
`calculatePixelDifference`, where the numerator is an exact integer sum
and the denominator a natural length: division by zero follows the
JavaScript rules (`0/0 = NaN`, otherwise a signed infinity). -/
def jsDiv (num : ℤ) (den : ℕ) : JSNum :=
  if den = 0 then
    if num = 0 then JSNum.nan else if 0 < num then JSNum.inf else JSNum.negInf
  else JSNum.val (mkRat num den)

theorem jsDiv_of_pos {den : ℕ} (num : ℤ) (h : den ≠ 0) :
    jsDiv num den = JSNum.val ((num : ℚ) / (den : ℚ)) := by
  simp [jsDiv, h, Rat.mkRat_eq_div]

/-- Squared Euclidean RGB distance; the source `colorDistance` returns the
square root of this quantity, and is only ever compared against the
tolerance 35, so comparisons are embedded against 35 ^ 2 = 1225. -/
def colorDistanceSq (r1 g1 b1 r2 g2 b2 : ℤ) : ℤ :=
  (r1 - r2) * (r1 - r2) + (g1 - g2) * (g1 - g2) + (b1 - b2) * (b1 - b2)

/-- Loop body of `isRowBlank`: starting at byte offset 4, step 4, compare
each pixel against the first pixel of the row. A tail of fewer than three
remaining bytes is never compared (in the source such reads produce
`undefined`, hence a `NaN` distance, and `NaN > 35` is false, so the loop
just runs off the end returning true; the clause below matches that). -/
def blankLoop (fR fG fB : ℤ) : List ℤ → Bool
  | r :: g :: b :: rest =>
      if colorDistanceSq fR fG fB r g b > 1225 then false
      else
        match rest with
        | [] => true
        | _ :: rest2 => blankLoop fR fG fB rest2
  | _ => true

/-- Embedding of `isRowBlank`: a row of RGBA bytes is blank when every
sampled pixel is within Euclidean distance 35 of the first pixel. -/
def isRowBlank (rowData : List ℤ) : Bool :=
  blankLoop (rowData.getD 0 0) (rowData.getD 1 0) (rowData.getD 2 0) (rowData.drop 4)

/-- Embedding of `calculatePixelDifference` from the image analysis
module: mean of squared componentwise differences over the common
length, with the JavaScript division rule at length zero. -/
def calculatePixelDifference (pixels1 pixels2 : List ℤ) : JSNum :=
  jsDiv
    ((List.range (min pixels1.length pixels2.length)).foldl
      (fun acc i =>
        acc + (pixels1.getD i 0 - pixels2.getD i 0) * (pixels1.getD i 0 - pixels2.getD i 0))
      0)
    (min pixels1.length pixels2.length)

namespace Content

/-- Embedding of the inline `calculatePixelDifference` in `content.js`:
mean of absolute componentwise differences over the common length. -/
def calculatePixelDifference (pixels1 pixels2 : List ℤ) : JSNum :=
  jsDiv
    ((List.range (min pixels1.length pixels2.length)).foldl
      (fun acc i => acc + |pixels1.getD i 0 - pixels2.getD i 0|)
      0)
    (min pixels1.length pixels2.length)

end Content

/-- Removal of the element at position `i`, as the source computes it:
`arr.slice(0, i).concat(arr.slice(i + 1))`. -/
def removeAt (l : List ℕ) (i : ℕ) : List ℕ :=
  l.take i ++ l.drop (i + 1)

/-- Recursion worker for `getPermutations`. The fuel argument only bounds
the recursion depth: every recursive call removes one element, so
starting the fuel at the list length never exhausts it (the fuel-zero
clause is unreachable from `getPermutations`). -/
def getPermutationsAux : ℕ → List ℕ → List (List ℕ)
  | 0, arr => [arr]
  | fuel + 1, arr =>
    if arr.length ≤ 1 then [arr]
    else
      (List.range arr.length).flatMap fun i =>
        (getPermutationsAux fuel (removeAt arr i)).map fun p => arr.getD i 0 :: p

/-- Embedding of `getPermutations`: all permutations of `arr`, generated
recursively by choosing each position in turn as the head. -/
def getPermutations (arr : List ℕ) : List (List ℕ) :=
  getPermutationsAux arr.length arr

/-- Edge signature of one image, as returned by `getEdgePixels`. -/
structure EdgeSig where
  topPixels : List ℤ
  bottomPixels : List ℤ
  topY : ℤ
  bottomY : ℤ
  hasBlankTop : Bool
  hasBlankBottom : Bool
deriving DecidableEq, Repr

instance : Inhabited EdgeSig := ⟨⟨[], [], 0, 0, false, false⟩⟩

/-- State of the blank-edge classification loop in `findOptimalOrder`:
the `-1` sentinels mirror the source initialisation. -/
structure ScanState where
  firstIdx : ℤ
  lastIdx : ℤ
  floatingIndices : List ℕ
deriving DecidableEq, Repr

/-- Body of the classification loop: floating indices are collected,
and the first and last candidates are overwritten by later matches. -/
def scanStep (s : ScanState) (i : ℕ) (e : EdgeSig) : ScanState :=
  if e.hasBlankTop && e.hasBlankBottom then
    { s with floatingIndices := s.floatingIndices ++ [i] }
  else if e.hasBlankTop && !e.hasBlankBottom then { s with firstIdx := (i : ℤ) }
  else if e.hasBlankBottom && !e.hasBlankTop then { s with lastIdx := (i : ℤ) }
  else s

/-- Classification loop of `findOptimalOrder`, running over the images in
index order starting from index `i`. -/
def scanLoop : ScanState → ℕ → List EdgeSig → ScanState
  | s, _, [] => s
  | s, i, e :: rest => scanLoop (scanStep s i e) (i + 1) rest

/-- Classification of all images, starting from the sentinel state. -/
def scanEdges (ed : List EdgeSig) : ScanState :=
  scanLoop ⟨-1, -1, []⟩ 0 ed

/-- Qualification for the FIRST anchor: blank top only. -/
def qualFirst (e : EdgeSig) : Bool := e.hasBlankTop && !e.hasBlankBottom

/-- Qualification for the LAST anchor: blank bottom only. -/
def qualLast (e : EdgeSig) : Bool := e.hasBlankBottom && !e.hasBlankTop

/-- Qualification for FLOATING: blank on both edges. -/
def qualBoth (e : EdgeSig) : Bool := e.hasBlankTop && e.hasBlankBottom

/-- Condition guarding the anchored path of `findOptimalOrder`:
both anchors found and distinct. -/
def anchorFound (s : ScanState) : Bool :=
  s.firstIdx != -1 && s.lastIdx != -1 && s.firstIdx != s.lastIdx

/-- Pairwise adjacency score of placing image `i` directly above image
`j`: difference between the bottom fingerprint of `i` and the top
fingerprint of `j`. -/
def pairDiff (ed : List EdgeSig) (i j : ℕ) : JSNum :=
  calculatePixelDifference (ed.getD i default).bottomPixels (ed.getD j default).topPixels

/-- Total adjacency score of an order: sum of `pairDiff` over consecutive
pairs, accumulated left to right from 0 as in the source loop. -/
def permScore (ed : List EdgeSig) (perm : List ℕ) : JSNum :=
  (perm.zip perm.tail).foldl
    (fun acc pr => acc.add (pairDiff ed pr.1 pr.2)) (JSNum.val 0)

/-- Middle indices of the anchored path: every index that is neither
anchor nor floating, in ascending order. -/
def middleIndicesOf (ed : List EdgeSig) : List ℕ :=
  (List.range ed.length).filter fun i =>
    ((i : ℤ) != (scanEdges ed).firstIdx) && ((i : ℤ) != (scanEdges ed).lastIdx)
      && !((scanEdges ed).floatingIndices.contains i)

/-- Base order produced by the anchored path, before floating indices are
appended: direct placement for up to one middle index, a two-candidate
comparison otherwise (using only the first two middle indices, exactly
as the source does). -/
def anchoredBase (ed : List EdgeSig) : List ℕ :=
  let firstIdx := (scanEdges ed).firstIdx.toNat
  let lastIdx := (scanEdges ed).lastIdx.toNat
  let middleIndices := middleIndicesOf ed
  if middleIndices.length = 0 then [firstIdx, lastIdx]
  else if middleIndices.length = 1 then [firstIdx, middleIndices.getD 0 0, lastIdx]
  else
    let m0 := middleIndices.getD 0 0
    let m1 := middleIndices.getD 1 0
    let score1 :=
      ((pairDiff ed firstIdx m0).add (pairDiff ed m0 m1)).add (pairDiff ed m1 lastIdx)
    let score2 :=
      ((pairDiff ed firstIdx m1).add (pairDiff ed m1 m0)).add (pairDiff ed m0 lastIdx)
    if score1.le score2 then [firstIdx, m0, m1, lastIdx]
    else [firstIdx, m1, m0, lastIdx]

/-- Indices that are not floating, in ascending order; the candidate set
of the fallback permutation search. -/
def nonFloatingIndices (ed : List EdgeSig) : List ℕ :=
  (List.range ed.length).filter fun i => !((scanEdges ed).floatingIndices.contains i)

/-- Body of the fallback search loop: keep the incumbent unless the new
permutation scores strictly lower. -/
def fallbackStep (ed : List EdgeSig) (acc : List ℕ × JSNum) (perm : List ℕ) :
    List ℕ × JSNum :=
  if JSNum.lt (permScore ed perm) acc.2 then (perm, permScore ed perm) else acc

/-- Best non-floating order found by the fallback search, starting from
the identity candidate with score `Infinity`. -/
def fallbackBest (ed : List EdgeSig) : List ℕ :=
  ((getPermutations (nonFloatingIndices ed)).foldl (fallbackStep ed)
    (nonFloatingIndices ed, JSNum.inf)).1

/-- Embedding of `findOptimalOrder` at the level of edge signatures: the
returned value is the final order of input indices (the source then maps
these indices back to the image handles). -/
def findOptimalOrder (ed : List EdgeSig) : List ℕ :=
  if anchorFound (scanEdges ed) then anchoredBase ed ++ (scanEdges ed).floatingIndices
  else fallbackBest ed ++ (scanEdges ed).floatingIndices

/-- Abstract image for the embedding of `getEdgePixels`: a height and,
for each row index `y`, the RGBA byte row the canvas read returns at
`y`. This stands for the `ctx.getImageData(0, y, width, 1).data` calls;
the engine touches images only through these reads. -/
structure JSImage where
  height : ℕ
  row : ℕ → List ℤ

/-- Letterbox scan window `min(floor(height * 0.1), 50)`. For every
height below 2 ^ 50 the double-precision product `height * 0.1` floors
to `height / 10`, so natural division is the faithful embedding. -/
def letterboxWindow (h : ℕ) : ℕ := min (h / 10) 50

/-- Content-top row of `getEdgePixels`: the first row inside the scan
window that is not blank, and the window size itself when the whole
window is blank (including the degenerate window of size zero). -/
def topYOf (img : JSImage) : ℕ :=
  match (List.range (letterboxWindow img.height)).find?
      (fun y => !isRowBlank (img.row y)) with
  | some y => y
  | none => letterboxWindow img.height

/-- Content-bottom row of `getEdgePixels`. The source loop runs `y` from
`height - 1` downward for `letterboxWindow` iterations, stopping at the
first non-blank row; substituting `y = height - 1 - k` turns it into the
upward scan below. The result is an integer because for `height = 0` the
source leaves the initial value `height - 1 = -1` in place. -/
def bottomYOf (img : JSImage) : ℤ :=
  match (List.range (letterboxWindow img.height)).find?
      (fun (k : ℕ) => !isRowBlank (img.row ((img.height : ℤ) - 1 - (k : ℤ)).toNat)) with
  | some k => (img.height : ℤ) - 1 - (k : ℤ)
  | none => (img.height : ℤ) - 1 - (letterboxWindow img.height : ℤ)

/-- Row sampling of `getEdgePixels`: every 40th byte offset yields one
RGB triple (every 10th RGBA pixel), alpha discarded. -/
def sampleRow (row : List ℤ) : List ℤ :=
  ((List.range row.length).filter fun i => i % 40 = 0).flatMap fun i =>
    [row.getD i 0, row.getD (i + 1) 0, row.getD (i + 2) 0]

/-- Embedding of `getEdgePixels` from the image analysis module: find the
content rows inside the letterbox window, sample them, and flag blank
edges. -/
def getEdgePixels (img : JSImage) : EdgeSig :=
  { topPixels := sampleRow (img.row (topYOf img))
    bottomPixels := sampleRow (img.row (bottomYOf img).toNat)
    topY := (topYOf img : ℤ)
    bottomY := bottomYOf img
    hasBlankTop := decide (0 < topYOf img)
    hasBlankBottom := decide (bottomYOf img < (img.height : ℤ) - 1) }

/-- Whole-pipeline order at the image level: extract one edge signature
per image, then order the indices. -/
def findOptimalOrderOfImages (imgs : List JSImage) : List ℕ :=
  findOptimalOrder (imgs.map getEdgePixels)

/-- One RGBA pixel, for stating row-level properties. -/
structure RGBA where
  r : ℤ
  g : ℤ
  b : ℤ
  a : ℤ
deriving DecidableEq, Repr

/-- Byte-row encoding of a pixel list, as `getImageData` delivers it. -/
def rgbaFlatten (ps : List RGBA) : List ℤ :=
  ps.flatMap fun p => [p.r, p.g, p.b, p.a]

theorem findRange_spec :
    ∀ (n : ℕ) (p : ℕ → Bool),
      ((List.range n).find? p = none ∧ ∀ z < n, p z = false)
      ∨ (∃ y, y < n ∧ (List.range n).find? p = some y ∧ p y = true ∧
          ∀ z < y, p z = false) := by
  intro n
  induction n with
  | zero => intro p; left; exact ⟨rfl, by omega⟩
  | succ n ih =>
    intro p
    rw [List.range_succ_eq_map]
    rcases hp0 : p 0 with _ | _
    · rw [List.find?_cons, hp0, List.find?_map]
      rcases ih (p ∘ Nat.succ) with ⟨hnone, hall⟩ | ⟨y, hy, hsome, hpy, hlt⟩
      · left
        refine ⟨by rw [hnone]; rfl, ?_⟩
        intro z hz
        match z with
        | 0 => exact hp0
        | k + 1 => exact hall k (by omega)
      · right
        refine ⟨y + 1, by omega, by rw [hsome]; rfl, hpy, ?_⟩
        intro z hz
        match z with
        | 0 => exact hp0
        | k + 1 => exact hlt k (by omega)
    · right
      exact ⟨0, by omega, by rw [List.find?_cons, hp0], hp0, by omega⟩

theorem foldl_add_eq (g : ℕ → ℤ) :
    ∀ (l : List ℕ) (init : ℤ),
      l.foldl (fun acc i => acc + g i) init = init + (l.map g).sum := by
  intro l
  induction l with
  | nil => intro init; simp
  | cons a l ih =>
    intro init
    simp only [List.foldl_cons, List.map_cons, List.sum_cons, ih, add_assoc]

theorem rangeMap_zip (f : ℤ → ℤ → ℤ) :
    ∀ (a b : List ℤ),
      (List.range (min a.length b.length)).map
          (fun i => f (a.getD i 0) (b.getD i 0))
        = (a.zip b).map fun p => f p.1 p.2 := by
  intro a
  induction a with
  | nil => intro b; simp
  | cons x xs ih =>
    intro b
    match b with
    | [] => simp
    | y :: ys =>
      simp only [List.length_cons, Nat.succ_min_succ, List.range_succ_eq_map,
        List.map_cons, List.map_map, List.zip_cons_cons]
      refine congrArg₂ _ rfl ?_
      have := ih ys
      rw [← this]
      rfl

theorem blankLoop_flatten (fR fG fB : ℤ) :
    ∀ ps : List RGBA,
      blankLoop fR fG fB (rgbaFlatten ps)
        = ps.all fun p => decide (colorDistanceSq fR fG fB p.r p.g p.b ≤ 1225) := by
  intro ps
  induction ps with
  | nil => rfl
  | cons p ps ih =>
    show blankLoop fR fG fB (p.r :: p.g :: p.b :: p.a :: rgbaFlatten ps) = _
    rcases hgt : decide (colorDistanceSq fR fG fB p.r p.g p.b > 1225) with _ | _
    · have hle : colorDistanceSq fR fG fB p.r p.g p.b ≤ 1225 := by
        have := of_decide_eq_false hgt
        omega
      simp only [blankLoop, if_neg (of_decide_eq_false hgt), List.all_cons,
        decide_eq_true hle, Bool.true_and]
      exact ih
    · have hgt2 := of_decide_eq_true hgt
      simp only [blankLoop, if_pos hgt2, List.all_cons]
      have : decide (colorDistanceSq fR fG fB p.r p.g p.b ≤ 1225) = false := by
        exact decide_eq_false (by omega)
      rw [this, Bool.false_and]

theorem colorDistanceSq_self (r g b : ℤ) : colorDistanceSq r g b r g b = 0 := by
  simp [colorDistanceSq]

theorem isRowBlank_flatten (p0 : RGBA) (ps : List RGBA) :
    isRowBlank (rgbaFlatten (p0 :: ps)) = true
      ↔ ∀ p ∈ p0 :: ps, colorDistanceSq p0.r p0.g p0.b p.r p.g p.b ≤ 1225 := by
  have hshape : rgbaFlatten (p0 :: ps) = p0.r :: p0.g :: p0.b :: p0.a :: rgbaFlatten ps := rfl
  rw [isRowBlank, hshape]
  show blankLoop p0.r p0.g p0.b (rgbaFlatten ps) = true ↔ _
  rw [blankLoop_flatten, List.all_eq_true]
  constructor
  · intro h p hp
    rcases List.mem_cons.mp hp with rfl | hp2
    · rw [colorDistanceSq_self]; omega
    · exact of_decide_eq_true (h p hp2)
  · intro h p hp
    exact decide_eq_true (h p (List.mem_cons_of_mem _ hp))

theorem removeAt_length {l : List ℕ} {i : ℕ} (h : i < l.length) :
    (removeAt l i).length = l.length - 1 := by
  simp only [removeAt, List.length_append, List.length_take, List.length_drop]
  omega

theorem removeAt_zero (a : ℕ) (l : List ℕ) : removeAt (a :: l) 0 = l := rfl

theorem removeAt_cons_succ (a : ℕ) (l : List ℕ) (i : ℕ) :
    removeAt (a :: l) (i + 1) = a :: removeAt l i := rfl

theorem cons_removeAt_perm :
    ∀ (l : List ℕ) (i : ℕ), i < l.length → (l.getD i 0 :: removeAt l i).Perm l := by
  intro l
  induction l with
  | nil => intro i hi; simp at hi
  | cons a as ih =>
    intro i hi
    match i with
    | 0 => rw [removeAt_zero]; exact List.Perm.refl _
    | k + 1 =>
      rw [removeAt_cons_succ]
      have h1 : ((a :: as).getD (k + 1) 0 :: a :: removeAt as k).Perm
          (a :: (a :: as).getD (k + 1) 0 :: removeAt as k) := List.Perm.swap _ _ _
      refine h1.trans (List.Perm.cons a ?_)
      have : (a :: as).getD (k + 1) 0 = as.getD k 0 := rfl
      rw [this]
      exact ih k (by simpa using hi)

theorem mem_exists_removeAt :
    ∀ (l : List ℕ) (x : ℕ), x ∈ l →
      ∃ i, i < l.length ∧ l.getD i 0 = x ∧ removeAt l i = l.erase x := by
  intro l
  induction l with
  | nil => intro x hx; simp at hx
  | cons a as ih =>
    intro x hx
    by_cases hax : a = x
    · exact ⟨0, by simp, hax, by rw [removeAt_zero, hax, List.erase_cons_head]⟩
    · have hxas : x ∈ as := by
        rcases List.mem_cons.mp hx with h | h
        · exact absurd h.symm hax
        · exact h
      obtain ⟨i, hi, hget, herase⟩ := ih x hxas
      refine ⟨i + 1, by simpa using Nat.succ_lt_succ hi, hget, ?_⟩
      rw [removeAt_cons_succ, herase,
        List.erase_cons_tail (by simpa using hax)]

theorem getPermutationsAux_head :
    ∀ (fuel : ℕ) (arr : List ℕ), (getPermutationsAux fuel arr).head? = some arr := by
  intro fuel
  induction fuel with
  | zero => intro arr; rfl
  | succ fuel ih =>
    intro arr
    rw [getPermutationsAux]
    by_cases h : arr.length ≤ 1
    · rw [if_pos h]; rfl
    · rw [if_neg h]
      match arr with
      | [] => simp at h
      | a :: as =>
        rw [show (a :: as).length = as.length + 1 from rfl,
          List.range_succ_eq_map, List.flatMap_cons, List.head?_append,
          List.head?_map, removeAt_zero, ih as]
        rfl

theorem getPermutationsAux_ne_nil (fuel : ℕ) (arr : List ℕ) :
    getPermutationsAux fuel arr ≠ [] := by
  have := getPermutationsAux_head fuel arr
  intro hnil
  rw [hnil] at this
  simp at this

theorem getPermutationsAux_mem_perm :
    ∀ (fuel : ℕ) (arr p : List ℕ), p ∈ getPermutationsAux fuel arr → p.Perm arr := by
  intro fuel
  induction fuel with
  | zero =>
    intro arr p hp
    rw [getPermutationsAux] at hp
    rcases List.mem_singleton.mp hp with rfl
    exact List.Perm.refl _
  | succ fuel ih =>
    intro arr p hp
    rw [getPermutationsAux] at hp
    by_cases h : arr.length ≤ 1
    · rw [if_pos h] at hp
      rcases List.mem_singleton.mp hp with rfl
      exact List.Perm.refl _
    · rw [if_neg h] at hp
      obtain ⟨i, hi, hmem⟩ := List.mem_flatMap.mp hp
      obtain ⟨q, hq, rfl⟩ := List.mem_map.mp hmem
      have hiarr : i < arr.length := List.mem_range.mp hi
      exact ((ih _ q hq).cons _).trans (cons_removeAt_perm arr i hiarr)

theorem sum_map_const_nat :
    ∀ (l : List ℕ) (g : ℕ → ℕ) (c : ℕ), (∀ x ∈ l, g x = c) →
      (l.map g).sum = l.length * c := by
  intro l
  induction l with
  | nil => intro g c _; simp
  | cons a as ih =>
    intro g c h
    simp only [List.map_cons, List.sum_cons, List.length_cons,
      h a (List.mem_cons_self a as), ih g c fun x hx => h x (List.mem_cons_of_mem a hx)]
    ring

theorem getPermutationsAux_length :
    ∀ (fuel : ℕ) (arr : List ℕ), arr.length ≤ fuel →
      (getPermutationsAux fuel arr).length = arr.length.factorial := by
  intro fuel
  induction fuel with
  | zero =>
    intro arr harr
    have : arr.length = 0 := Nat.le_zero.mp harr
    rw [getPermutationsAux, this]
    rfl
  | succ fuel ih =>
    intro arr harr
    rw [getPermutationsAux]
    by_cases h : arr.length ≤ 1
    · rw [if_pos h]
      interval_cases harrlen : arr.length <;> rfl
    · rw [if_neg h]
      rw [List.length_flatMap]
      have hlen : ∀ i ∈ List.range arr.length,
          (List.length ∘ fun i =>
            (getPermutationsAux fuel (removeAt arr i)).map fun p => arr.getD i 0 :: p) i
            = (arr.length - 1).factorial := by
        intro i hi
        have hiarr : i < arr.length := List.mem_range.mp hi
        simp only [Function.comp_apply, List.length_map]
        rw [ih (removeAt arr i) (by rw [removeAt_length hiarr]; omega),
          removeAt_length hiarr]
      rw [sum_map_const_nat _ _ _ hlen, List.length_range]
      match harrlen : arr.length, h with
      | n + 1, _ =>
        simp only [Nat.add_sub_cancel]
        exact (Nat.factorial_succ n).symm

theorem getPermutationsAux_complete :
    ∀ (fuel : ℕ) (arr p : List ℕ), arr.length ≤ fuel → p.Perm arr →
      p ∈ getPermutationsAux fuel arr := by
  intro fuel
  induction fuel with
  | zero =>
    intro arr p harr hp
    have : arr.length = 0 := Nat.le_zero.mp harr
    have harrnil : arr = [] := List.length_eq_zero.mp this
    rw [getPermutationsAux, harrnil]
    rw [harrnil] at hp
    simp [List.perm_nil.mp hp]
  | succ fuel ih =>
    intro arr p harr hp
    rw [getPermutationsAux]
    by_cases h : arr.length ≤ 1
    · rw [if_pos h]
      match arr, h with
      | [], _ => simp [List.perm_nil.mp hp]
      | [a], _ => simp [List.perm_singleton.mp hp]
    · rw [if_neg h]
      match p, hp with
      | [], hp =>
        have := hp.length_eq
        simp at this
        omega
      | x :: p2, hp =>
        have hx : x ∈ arr := hp.mem_iff.mp (List.mem_cons_self x p2)
        obtain ⟨i, hi, hget, herase⟩ := mem_exists_removeAt arr x hx
        have hp2 : p2.Perm (removeAt arr i) := by
          rw [herase]
          exact (List.cons_perm_iff_perm_erase.mp hp).2
        refine List.mem_flatMap.mpr ⟨i, List.mem_range.mpr hi, ?_⟩
        refine List.mem_map.mpr ⟨p2, ?_, by rw [hget]⟩
        exact ih (removeAt arr i) p2 (by rw [removeAt_length hi]; omega) hp2

theorem getPermutations_head (arr : List ℕ) :
    (getPermutations arr).head? = some arr :=
  getPermutationsAux_head arr.length arr

theorem getPermutations_ne_nil (arr : List ℕ) : getPermutations arr ≠ [] :=
  getPermutationsAux_ne_nil arr.length arr

theorem getPermutations_length (arr : List ℕ) :
    (getPermutations arr).length = arr.length.factorial :=
  getPermutationsAux_length arr.length arr le_rfl

theorem getPermutations_mem_perm {arr p : List ℕ} (h : p ∈ getPermutations arr) :
    p.Perm arr :=
  getPermutationsAux_mem_perm arr.length arr p h

theorem getPermutations_complete {arr p : List ℕ} (h : p.Perm arr) :
    p ∈ getPermutations arr :=
  getPermutationsAux_complete arr.length arr p le_rfl h

theorem scanStep_firstIdx_set {e : EdgeSig} (s : ScanState) (i : ℕ)
    (h : qualFirst e = true) : (scanStep s i e).firstIdx = (i : ℤ) := by
  rcases e with ⟨tp, bp, ty, byy, t, b⟩
  cases t <;> cases b <;> simp_all [scanStep, qualFirst]

theorem scanStep_firstIdx_keep {e : EdgeSig} (s : ScanState) (i : ℕ)
    (h : qualFirst e = false) : (scanStep s i e).firstIdx = s.firstIdx := by
  rcases e with ⟨tp, bp, ty, byy, t, b⟩
  cases t <;> cases b <;> simp_all [scanStep, qualFirst]

theorem scanStep_lastIdx_set {e : EdgeSig} (s : ScanState) (i : ℕ)
    (h : qualLast e = true) : (scanStep s i e).lastIdx = (i : ℤ) := by
  rcases e with ⟨tp, bp, ty, byy, t, b⟩
  cases t <;> cases b <;> simp_all [scanStep, qualLast]

theorem scanStep_lastIdx_keep {e : EdgeSig} (s : ScanState) (i : ℕ)
    (h : qualLast e = false) : (scanStep s i e).lastIdx = s.lastIdx := by
  rcases e with ⟨tp, bp, ty, byy, t, b⟩
  cases t <;> cases b <;> simp_all [scanStep, qualLast]

theorem scanStep_floating_set {e : EdgeSig} (s : ScanState) (i : ℕ)
    (h : qualBoth e = true) :
    (scanStep s i e).floatingIndices = s.floatingIndices ++ [i] := by
  rcases e with ⟨tp, bp, ty, byy, t, b⟩
  cases t <;> cases b <;> simp_all [scanStep, qualBoth]

theorem scanStep_floating_keep {e : EdgeSig} (s : ScanState) (i : ℕ)
    (h : qualBoth e = false) :
    (scanStep s i e).floatingIndices = s.floatingIndices := by
  rcases e with ⟨tp, bp, ty, byy, t, b⟩
  cases t <;> cases b <;> simp_all [scanStep, qualBoth]

theorem scanLoop_track (proj : ScanState → ℤ) (qual : EdgeSig → Bool)
    (hset : ∀ (s : ScanState) (i : ℕ) (e : EdgeSig), qual e = true →
      proj (scanStep s i e) = (i : ℤ))
    (hkeep : ∀ (s : ScanState) (i : ℕ) (e : EdgeSig), qual e = false →
      proj (scanStep s i e) = proj s) :
    ∀ (l : List EdgeSig) (s : ScanState) (i : ℕ),
      (proj (scanLoop s i l) = proj s
          ∧ ∀ k < l.length, qual (l.getD k default) = false)
      ∨ (∃ k, k < l.length ∧ proj (scanLoop s i l) = ((i + k : ℕ) : ℤ)
          ∧ qual (l.getD k default) = true
          ∧ ∀ j, k < j → j < l.length → qual (l.getD j default) = false) := by
  intro l
  induction l with
  | nil =>
    intro s i
    left
    exact ⟨rfl, by intro k hk; simp at hk⟩
  | cons e rest ih =>
    intro s i
    rw [scanLoop]
    rcases qe : qual e with _ | _
    · rcases ih (scanStep s i e) (i + 1) with ⟨heq, hnone⟩ | ⟨k, hk, heq, hq, hlater⟩
      · left
        refine ⟨by rw [heq, hkeep s i e qe], ?_⟩
        intro k hk
        match k with
        | 0 => exact qe
        | j + 1 => exact hnone j (by simpa using hk)
      · right
        refine ⟨k + 1, by simpa using Nat.succ_lt_succ hk, ?_, hq, ?_⟩
        · have harith : i + 1 + k = i + (k + 1) := by omega
          rw [heq, harith]
        · intro j hj1 hj2
          match j with
          | 0 => omega
          | m + 1 => exact hlater m (by omega) (by simpa using hj2)
    · rcases ih (scanStep s i e) (i + 1) with ⟨heq, hnone⟩ | ⟨k, hk, heq, hq, hlater⟩
      · right
        refine ⟨0, by simp, ?_, qe, ?_⟩
        · have harith : i = i + 0 := by omega
          rw [heq, hset s i e qe, harith]
        · intro j hj1 hj2
          match j with
          | 0 => omega
          | m + 1 => exact hnone m (by simpa using hj2)
      · right
        refine ⟨k + 1, by simpa using Nat.succ_lt_succ hk, ?_, hq, ?_⟩
        · have harith : i + 1 + k = i + (k + 1) := by omega
          rw [heq, harith]
        · intro j hj1 hj2
          match j with
          | 0 => omega
          | m + 1 => exact hlater m (by omega) (by simpa using hj2)

/-- Indices collected by the classification loop from position `i`
onward, mirroring the floating pushes of the source loop. -/
def floatFrom : List EdgeSig → ℕ → List ℕ
  | [], _ => []
  | e :: rest, i => (if qualBoth e then [i] else []) ++ floatFrom rest (i + 1)

theorem scanLoop_floating :
    ∀ (l : List EdgeSig) (s : ScanState) (i : ℕ),
      (scanLoop s i l).floatingIndices = s.floatingIndices ++ floatFrom l i := by
  intro l
  induction l with
  | nil => intro s i; simp [scanLoop, floatFrom]
  | cons e rest ih =>
    intro s i
    rw [scanLoop, ih, floatFrom]
    rcases qe : qualBoth e with _ | _
    · rw [scanStep_floating_keep s i qe]
      simp
    · rw [scanStep_floating_set s i qe]
      simp

theorem floatFrom_eq :
    ∀ (l : List EdgeSig) (i : ℕ),
      floatFrom l i
        = ((List.range l.length).filter fun k =>
            qualBoth (l.getD k default)).map (i + ·) := by
  intro l
  induction l with
  | nil => intro i; rfl
  | cons e rest ih =>
    intro i
    rw [floatFrom, show (e :: rest).length = rest.length + 1 from rfl,
      List.range_succ_eq_map, List.filter_cons]
    have hfilter : List.filter (fun k => qualBoth ((e :: rest).getD k default))
        (List.map Nat.succ (List.range rest.length))
        = List.map Nat.succ
            ((List.range rest.length).filter fun k => qualBoth (rest.getD k default)) := by
      rw [List.filter_map]
      rfl
    have htail : List.map (i + ·)
        (List.map Nat.succ
          ((List.range rest.length).filter fun k => qualBoth (rest.getD k default)))
        = floatFrom rest (i + 1) := by
      rw [List.map_map, ih (i + 1)]
      apply List.map_congr_left
      intro a _
      simp only [Function.comp_apply]
      omega
    have hgd0 : qualBoth ((e :: rest).getD 0 default) = qualBoth e := rfl
    rcases qe : qualBoth e with _ | _
    · rw [hgd0, qe]
      simp only [Bool.false_eq_true, if_false]
      rw [hfilter, htail]
      simp
    · rw [hgd0, qe]
      simp only [if_true]
      rw [List.map_cons, hfilter, htail]
      simp

/-- Reference description of the floating indices: the both-blank
indices of the input, in ascending order. -/
def floatingOf (ed : List EdgeSig) : List ℕ :=
  (List.range ed.length).filter fun k => qualBoth (ed.getD k default)

theorem scanEdges_floating (ed : List EdgeSig) :
    (scanEdges ed).floatingIndices = floatingOf ed := by
  rw [scanEdges, scanLoop_floating, floatFrom_eq]
  simp only [List.nil_append]
  have hm : List.map (0 + ·)
      ((List.range ed.length).filter fun k => qualBoth (ed.getD k default))
      = List.map id
        ((List.range ed.length).filter fun k => qualBoth (ed.getD k default)) :=
    List.map_congr_left (by intro a _; simp)
  rw [hm, List.map_id, floatingOf]

theorem floatingOf_sorted (ed : List EdgeSig) :
    List.Sorted (· < ·) (floatingOf ed) :=
  (List.pairwise_lt_range ed.length).filter _

theorem mem_floatingOf {ed : List EdgeSig} {k : ℕ} :
    k ∈ floatingOf ed ↔ k < ed.length ∧ qualBoth (ed.getD k default) = true := by
  rw [floatingOf, List.mem_filter, List.mem_range]

theorem scanEdges_firstIdx (ed : List EdgeSig) :
    ((scanEdges ed).firstIdx = -1
        ∧ ∀ k < ed.length, qualFirst (ed.getD k default) = false)
    ∨ (∃ k, k < ed.length ∧ (scanEdges ed).firstIdx = (k : ℤ)
        ∧ qualFirst (ed.getD k default) = true
        ∧ ∀ j, k < j → j < ed.length → qualFirst (ed.getD j default) = false) := by
  have h := scanLoop_track (fun s => s.firstIdx) qualFirst
    (fun s i e he => scanStep_firstIdx_set s i he)
    (fun s i e he => scanStep_firstIdx_keep s i he) ed ⟨-1, -1, []⟩ 0
  rcases h with ⟨heq, hnone⟩ | ⟨k, hk, heq, hq, hlater⟩
  · exact Or.inl ⟨heq, hnone⟩
  · refine Or.inr ⟨k, hk, ?_, hq, hlater⟩
    rw [scanEdges]
    rw [show ((0 + k : ℕ) : ℤ) = (k : ℤ) by omega] at heq
    exact heq

/-- Fold of the fallback search loop over a list of candidate
permutations, abstracted over the scoring function. -/
def selectLoop (f : List ℕ → JSNum) (ps : List (List ℕ)) (acc : List ℕ × JSNum) :
    List ℕ × JSNum :=
  ps.foldl (fun a p => if JSNum.lt (f p) a.2 then (p, f p) else a) acc

theorem fallbackBest_eq_selectLoop (ed : List EdgeSig) :
    fallbackBest ed
      = (selectLoop (permScore ed) (getPermutations (nonFloatingIndices ed))
          (nonFloatingIndices ed, JSNum.inf)).1 := rfl

theorem selectLoop_mem (f : List ℕ → JSNum) :
    ∀ (ps : List (List ℕ)) (b : List ℕ) (s : JSNum),
      (selectLoop f ps (b, s)).1 = b ∨ (selectLoop f ps (b, s)).1 ∈ ps := by
  intro ps
  induction ps with
  | nil => intro b s; left; rfl
  | cons p rest ih =>
    intro b s
    rw [selectLoop, List.foldl_cons]
    rcases hlt : JSNum.lt (f p) s with _ | _
    · simp only [hlt, Bool.false_eq_true, if_false]
      rcases ih b s with h | h
      · exact Or.inl h
      · exact Or.inr (List.mem_cons_of_mem _ h)
    · simp only [hlt, if_true]
      rcases ih p (f p) with h | h
      · exact Or.inr (by rw [selectLoop] at h; rw [h]; exact List.mem_cons_self _ _)
      · exact Or.inr (List.mem_cons_of_mem _ (by rw [selectLoop] at h; exact h))

theorem selectLoop_spec (f : List ℕ → JSNum) :
    ∀ (ps : List (List ℕ)) (b : List ℕ) (s : JSNum),
      (∀ p ∈ ps, (f p).isVal = true) →
      (selectLoop f ps (b, s) = (b, s) ∧ ∀ p ∈ ps, JSNum.lt (f p) s = false)
      ∨ (∃ pre best post, ps = pre ++ best :: post
          ∧ selectLoop f ps (b, s) = (best, f best)
          ∧ JSNum.lt (f best) s = true
          ∧ (∀ p ∈ pre, JSNum.lt (f best) (f p) = true)
          ∧ (∀ p ∈ post, JSNum.lt (f p) (f best) = false)) := by
  intro ps
  induction ps with
  | nil =>
    intro b s _
    left
    exact ⟨rfl, by intro p hp; simp at hp⟩
  | cons p rest ih =>
    intro b s hv
    have hvp : (f p).isVal = true := hv p (List.mem_cons_self _ _)
    have hvrest : ∀ q ∈ rest, (f q).isVal = true :=
      fun q hq => hv q (List.mem_cons_of_mem _ hq)
    rw [selectLoop, List.foldl_cons]
    rcases hlt : JSNum.lt (f p) s with _ | _
    · simp only [hlt, Bool.false_eq_true, if_false]
      rcases ih b s hvrest with ⟨heq, hnone⟩ | ⟨pre, best, post, hps, heq, hbs, hpre, hpost⟩
      · left
        refine ⟨heq, ?_⟩
        intro q hq
        rcases List.mem_cons.mp hq with rfl | hq2
        · exact hlt
        · exact hnone q hq2
      · right
        refine ⟨p :: pre, best, post, by rw [hps]; rfl, heq, hbs, ?_, hpost⟩
        intro q hq
        rcases List.mem_cons.mp hq with rfl | hq2
        · exact JSNum.lt_of_not_lt_of_lt hvp hlt hbs
        · exact hpre q hq2
    · simp only [hlt, if_true]
      rcases ih p (f p) hvrest with ⟨heq, hnone⟩ | ⟨pre, best, post, hps, heq, hbs, hpre, hpost⟩
      · right
        exact ⟨[], p, rest, rfl, heq, hlt, by intro q hq; simp at hq, hnone⟩
      · right
        refine ⟨p :: pre, best, post, by rw [hps]; rfl, heq,
          JSNum.lt_trans_js hbs hlt, ?_, hpost⟩
        intro q hq
        rcases List.mem_cons.mp hq with rfl | hq2
        · exact hbs
        · exact hpre q hq2

theorem foldl_add_isVal (g : ℕ × ℕ → JSNum) :
    ∀ (l : List (ℕ × ℕ)) (acc : JSNum), acc.isVal = true →
      (∀ x ∈ l, (g x).isVal = true) →
      ((l.foldl (fun a x => a.add (g x)) acc)).isVal = true := by
  intro l
  induction l with
  | nil => intro acc hacc _; exact hacc
  | cons x l ih =>
    intro acc hacc hall
    rw [List.foldl_cons]
    exact ih _ (JSNum.isVal_add hacc (hall x (List.mem_cons_self _ _)))
      fun y hy => hall y (List.mem_cons_of_mem _ hy)

theorem permScore_isVal {ed : List EdgeSig} {perm : List ℕ}
    (h : ∀ i ∈ perm, ∀ j ∈ perm, (pairDiff ed i j).isVal = true) :
    (permScore ed perm).isVal = true := by
  rw [permScore]
  refine foldl_add_isVal _ _ _ rfl ?_
  intro pr hpr
  have hmem := List.of_mem_zip hpr
  exact h pr.1 hmem.1 pr.2 (List.mem_of_mem_tail hmem.2)

theorem permScore_quad (ed : List EdgeSig) (a b c d : ℕ) :
    permScore ed [a, b, c, d]
      = ((pairDiff ed a b).add (pairDiff ed b c)).add (pairDiff ed c d) := by
  show ((((JSNum.val 0).add (pairDiff ed a b)).add (pairDiff ed b c)).add
    (pairDiff ed c d)) = _
  rw [JSNum.zero_add_eq]

theorem scanEdges_lastIdx (ed : List EdgeSig) :
    ((scanEdges ed).lastIdx = -1
        ∧ ∀ k < ed.length, qualLast (ed.getD k default) = false)
    ∨ (∃ k, k < ed.length ∧ (scanEdges ed).lastIdx = (k : ℤ)
        ∧ qualLast (ed.getD k default) = true
        ∧ ∀ j, k < j → j < ed.length → qualLast (ed.getD j default) = false) := by
  have h := scanLoop_track (fun s => s.lastIdx) qualLast
    (fun s i e he => scanStep_lastIdx_set s i he)
    (fun s i e he => scanStep_lastIdx_keep s i he) ed ⟨-1, -1, []⟩ 0
  rcases h with ⟨heq, hnone⟩ | ⟨k, hk, heq, hq, hlater⟩
  · exact Or.inl ⟨heq, hnone⟩
  · refine Or.inr ⟨k, hk, ?_, hq, hlater⟩
    rw [scanEdges]
    rw [show ((0 + k : ℕ) : ℤ) = (k : ℤ) by omega] at heq
    exact heq

theorem calculatePixelDifference_eq (a b : List ℤ) (h : 0 < min a.length b.length) :
    calculatePixelDifference a b
      = JSNum.val
          (((((a.zip b).map fun p => (p.1 - p.2) * (p.1 - p.2)).sum : ℤ) : ℚ)
            / ((min a.length b.length : ℕ) : ℚ)) := by
  rw [calculatePixelDifference,
    foldl_add_eq (fun i => (a.getD i 0 - b.getD i 0) * (a.getD i 0 - b.getD i 0)),
    zero_add, rangeMap_zip (fun x y => (x - y) * (x - y)) a b,
    jsDiv_of_pos _ (by omega)]

theorem content_calculatePixelDifference_eq (a b : List ℤ)
    (h : 0 < min a.length b.length) :
    Content.calculatePixelDifference a b
      = JSNum.val
          (((((a.zip b).map fun p => |p.1 - p.2|).sum : ℤ) : ℚ)
            / ((min a.length b.length : ℕ) : ℚ)) := by
  rw [Content.calculatePixelDifference,
    foldl_add_eq (fun i => |a.getD i 0 - b.getD i 0|),
    zero_add, rangeMap_zip (fun x y => |x - y|) a b,
    jsDiv_of_pos _ (by omega)]

/-- C7: `isRowBlank` returns true exactly when every pixel of the row is
within Euclidean RGB distance 35 of the first pixel of the row;
exactly 35 (squared distance exactly 1225) still counts as blank. -/
theorem spec_c7_row_blank (p0 : RGBA) (ps : List RGBA) (rowData : List ℤ)
    (h : rowData = rgbaFlatten (p0 :: ps)) :
    isRowBlank rowData = true
      ↔ ∀ p ∈ p0 :: ps, colorDistanceSq p0.r p0.g p0.b p.r p.g p.b ≤ 35 * 35 := by
  subst h
  rw [isRowBlank_flatten]
  norm_num

/-- Witness for C7 at a concrete row: a second pixel at distance exactly
35 from the first keeps the row blank, distance 36 breaks it. -/
theorem spec_c7_row_blank_witness :
    (isRowBlank (rgbaFlatten [⟨0, 0, 0, 255⟩, ⟨35, 0, 0, 255⟩]) = true
      ↔ ∀ p ∈ [RGBA.mk 0 0 0 255, RGBA.mk 35 0 0 255],
          colorDistanceSq 0 0 0 p.r p.g p.b ≤ 35 * 35)
    ∧ isRowBlank (rgbaFlatten [⟨0, 0, 0, 255⟩, ⟨35, 0, 0, 255⟩]) = true
    ∧ isRowBlank (rgbaFlatten [⟨0, 0, 0, 255⟩, ⟨36, 0, 0, 255⟩]) = false :=
  ⟨spec_c7_row_blank ⟨0, 0, 0, 255⟩ [⟨35, 0, 0, 255⟩] _ rfl, by decide, by decide⟩

/-- C8, counterexample to the second half of the claim: the analysis
module metric and the inline `content.js` metric disagree already on the
one-component arrays `[0]` and `[2]` (squared difference 4 against
absolute difference 2), so the inline copy does not compute the same
value on all inputs with positive common length. -/
theorem spec_c8_counterexample :
    calculatePixelDifference [(0 : ℤ)] [(2 : ℤ)] = JSNum.val 4
    ∧ Content.calculatePixelDifference [(0 : ℤ)] [(2 : ℤ)] = JSNum.val 2
    ∧ JSNum.val (4 : ℚ) ≠ JSNum.val (2 : ℚ) := by
  refine ⟨by decide, by decide, by decide⟩

/-- C8 as amended: over the first `n = min(len a, len b)` aligned
components with `n` positive, the analysis module metric is the sum of
squared componentwise differences divided by `n`, while the inline
`content.js` copy is the sum of absolute componentwise differences
divided by `n`. -/
theorem spec_c8_difference_formulas (a b : List ℤ) (h : 0 < min a.length b.length) :
    calculatePixelDifference a b
      = JSNum.val
          (((((a.zip b).map fun p => (p.1 - p.2) * (p.1 - p.2)).sum : ℤ) : ℚ)
            / ((min a.length b.length : ℕ) : ℚ))
    ∧ Content.calculatePixelDifference a b
      = JSNum.val
          (((((a.zip b).map fun p => |p.1 - p.2|).sum : ℤ) : ℚ)
            / ((min a.length b.length : ℕ) : ℚ)) :=
  ⟨calculatePixelDifference_eq a b h, content_calculatePixelDifference_eq a b h⟩

/-- Witness for C8 on the arrays `[0]` and `[2]`. -/
theorem spec_c8_difference_formulas_witness :
    calculatePixelDifference [(0 : ℤ)] [(2 : ℤ)]
      = JSNum.val
          (((((([(0 : ℤ)].zip [(2 : ℤ)]).map fun p => (p.1 - p.2) * (p.1 - p.2)).sum : ℤ) : ℚ)
            / ((min (List.length [(0 : ℤ)]) (List.length [(2 : ℤ)]) : ℕ) : ℚ)))
    ∧ Content.calculatePixelDifference [(0 : ℤ)] [(2 : ℤ)]
      = JSNum.val
          (((((([(0 : ℤ)].zip [(2 : ℤ)]).map fun p => |p.1 - p.2|).sum : ℤ) : ℚ)
            / ((min (List.length [(0 : ℤ)]) (List.length [(2 : ℤ)]) : ℕ) : ℚ))) :=
  spec_c8_difference_formulas [(0 : ℤ)] [(2 : ℤ)] (by decide)

/-- C9: at common length zero the code performs the JavaScript division
`0 / 0` and returns `NaN`; it does not guard the division, so the claim
that a defined non-`0/0` value is produced fails on the code. -/
theorem spec_c9_divide_by_zero_nan :
    calculatePixelDifference ([] : List ℤ) [(5 : ℤ)] = JSNum.nan
    ∧ min (List.length ([] : List ℤ)) (List.length [(5 : ℤ)]) = 0 := by
  refine ⟨by decide, by decide⟩

/-- C10: `getPermutations` returns `n!` lists for an input of length
`n`, every returned list is a rearrangement of the input, and the first
returned list is the input itself (so the identity order is the
earliest-generated candidate in the fallback search). -/
theorem spec_c10_permutations (arr : List ℕ) :
    (getPermutations arr).length = Nat.factorial arr.length
    ∧ (∀ p ∈ getPermutations arr, p.Perm arr)
    ∧ (getPermutations arr).head? = some arr :=
  ⟨getPermutations_length arr, fun _ hp => getPermutations_mem_perm hp,
    getPermutations_head arr⟩

theorem contains_iff_mem {l : List ℕ} {a : ℕ} : l.contains a = true ↔ a ∈ l :=
  List.elem_iff

theorem qualBoth_false_of_qualFirst {e : EdgeSig} (h : qualFirst e = true) :
    qualBoth e = false := by
  rcases e with ⟨tp, bp, ty, byy, t, b⟩
  cases t <;> cases b <;> simp_all [qualFirst, qualBoth]

theorem qualBoth_false_of_qualLast {e : EdgeSig} (h : qualLast e = true) :
    qualBoth e = false := by
  rcases e with ⟨tp, bp, ty, byy, t, b⟩
  cases t <;> cases b <;> simp_all [qualLast, qualBoth]

theorem mem_nonFloating_iff {ed : List EdgeSig} {i : ℕ} :
    i ∈ nonFloatingIndices ed
      ↔ i < ed.length ∧ i ∉ (scanEdges ed).floatingIndices := by
  rw [nonFloatingIndices, List.mem_filter, List.mem_range, Bool.not_eq_true']
  constructor
  · rintro ⟨h1, h2⟩
    refine ⟨h1, fun hmem => ?_⟩
    rw [contains_iff_mem.mpr hmem] at h2
    cases h2
  · rintro ⟨h1, h2⟩
    refine ⟨h1, ?_⟩
    rcases hc : (scanEdges ed).floatingIndices.contains i with _ | _
    · rfl
    · exact absurd (contains_iff_mem.mp hc) h2

theorem fallbackBest_perm (ed : List EdgeSig) :
    (fallbackBest ed).Perm (nonFloatingIndices ed) := by
  rw [fallbackBest_eq_selectLoop]
  rcases selectLoop_mem (permScore ed) (getPermutations (nonFloatingIndices ed))
      (nonFloatingIndices ed) JSNum.inf with h | h
  · rw [h]
  · exact getPermutations_mem_perm h

theorem anchorFound_first_last (ed : List EdgeSig)
    (h : anchorFound (scanEdges ed) = true) :
    ∃ kf kl, kf < ed.length ∧ kl < ed.length
      ∧ (scanEdges ed).firstIdx = (kf : ℤ) ∧ (scanEdges ed).lastIdx = (kl : ℤ)
      ∧ qualFirst (ed.getD kf default) = true ∧ qualLast (ed.getD kl default) = true
      ∧ kf ≠ kl
      ∧ (scanEdges ed).firstIdx.toNat = kf ∧ (scanEdges ed).lastIdx.toNat = kl := by
  rw [anchorFound, Bool.and_eq_true, Bool.and_eq_true] at h
  obtain ⟨⟨hf, hl⟩, hne⟩ := h
  rw [bne_iff_ne] at hf hl hne
  rcases scanEdges_firstIdx ed with ⟨heq, _⟩ | ⟨kf, hkf, heqf, hqf, _⟩
  · exact absurd heq hf
  rcases scanEdges_lastIdx ed with ⟨heq, _⟩ | ⟨kl, hkl, heql, hql, _⟩
  · exact absurd heq hl
  refine ⟨kf, kl, hkf, hkl, heqf, heql, hqf, hql, ?_, ?_, ?_⟩
  · intro hkk
    rw [heqf, heql, hkk] at hne
    exact hne rfl
  · rw [heqf, Int.toNat_natCast]
  · rw [heql, Int.toNat_natCast]

theorem mem_anchoredBase {ed : List EdgeSig} {i : ℕ} (h : i ∈ anchoredBase ed) :
    i = (scanEdges ed).firstIdx.toNat ∨ i = (scanEdges ed).lastIdx.toNat
      ∨ i ∈ middleIndicesOf ed := by
  simp only [anchoredBase] at h
  split_ifs at h with h0 h1 h2
  · rcases List.mem_cons.mp h with rfl | h
    · exact Or.inl rfl
    · rcases List.mem_cons.mp h with rfl | h
      · exact Or.inr (Or.inl rfl)
      · simp at h
  · rcases List.mem_cons.mp h with rfl | h
    · exact Or.inl rfl
    · rcases List.mem_cons.mp h with hm | h
      · refine Or.inr (Or.inr ?_)
        rw [hm, List.getD_eq_getElem _ _ (by omega)]
        exact List.getElem_mem (by omega)
      · rcases List.mem_cons.mp h with rfl | h
        · exact Or.inr (Or.inl rfl)
        · simp at h
  all_goals {
    have hlen : 1 < (middleIndicesOf ed).length := by omega
    rcases List.mem_cons.mp h with rfl | h
    · exact Or.inl rfl
    · rcases List.mem_cons.mp h with hm | h
      · refine Or.inr (Or.inr ?_)
        rw [hm, List.getD_eq_getElem _ _ (by omega)]
        exact List.getElem_mem (by omega)
      · rcases List.mem_cons.mp h with hm | h
        · refine Or.inr (Or.inr ?_)
          rw [hm, List.getD_eq_getElem _ _ (by omega)]
          exact List.getElem_mem (by omega)
        · rcases List.mem_cons.mp h with rfl | h
          · exact Or.inr (Or.inl rfl)
          · simp at h
  }

theorem mem_middle_not_floating {ed : List EdgeSig} {i : ℕ}
    (h : i ∈ middleIndicesOf ed) : i ∉ (scanEdges ed).floatingIndices := by
  rw [middleIndicesOf, List.mem_filter] at h
  have h2 := h.2
  rw [Bool.and_eq_true, Bool.and_eq_true] at h2
  have h3 := h2.2
  rw [Bool.not_eq_true'] at h3
  intro hmem
  rw [contains_iff_mem.mpr hmem] at h3
  cases h3

theorem anchoredBase_not_floating {ed : List EdgeSig}
    (h : anchorFound (scanEdges ed) = true) :
    ∀ i ∈ anchoredBase ed, i ∉ (scanEdges ed).floatingIndices := by
  intro i hi
  obtain ⟨kf, kl, hkf, hkl, heqf, heql, hqf, hql, hne, htf, htl⟩ :=
    anchorFound_first_last ed h
  rcases mem_anchoredBase hi with rfl | rfl | hmid
  · rw [htf, scanEdges_floating]
    intro hmem
    have hq := (mem_floatingOf.mp hmem).2
    rw [qualBoth_false_of_qualFirst hqf] at hq
    cases hq
  · rw [htl, scanEdges_floating]
    intro hmem
    have hq := (mem_floatingOf.mp hmem).2
    rw [qualBoth_false_of_qualLast hql] at hq
    cases hq
  · exact mem_middle_not_floating hmid

/-- C4: on both paths the returned order is a base block followed by
exactly the floating indices; the floating block lists the both-blank
indices in ascending original order, and no floating index occurs in the
base block, independently of any pixel scores. -/
theorem spec_c4_floating_trailing (ed : List EdgeSig) :
    ∃ base, findOptimalOrder ed = base ++ (scanEdges ed).floatingIndices
      ∧ (∀ i ∈ base, i ∉ (scanEdges ed).floatingIndices)
      ∧ (scanEdges ed).floatingIndices = floatingOf ed
      ∧ List.Sorted (· < ·) ((scanEdges ed).floatingIndices) := by
  rcases hA : anchorFound (scanEdges ed) with _ | _
  · refine ⟨fallbackBest ed, ?_, ?_, scanEdges_floating ed, ?_⟩
    · rw [findOptimalOrder, if_neg (by rw [hA]; exact Bool.false_ne_true)]
    · intro i hi
      have hmem := (fallbackBest_perm ed).mem_iff.mp hi
      exact (mem_nonFloating_iff.mp hmem).2
    · rw [scanEdges_floating]
      exact floatingOf_sorted ed
  · refine ⟨anchoredBase ed, ?_, anchoredBase_not_floating hA, scanEdges_floating ed, ?_⟩
    · rw [findOptimalOrder, if_pos hA]
    · rw [scanEdges_floating]
      exact floatingOf_sorted ed

/-- C5: whenever some index qualifies as FIRST candidate (blank top
only), the scan stores the largest qualifying index in `firstIdx`, later
matches having overwritten earlier ones; symmetrically for `lastIdx`
over the LAST candidates (blank bottom only). -/
theorem spec_c5_last_wins (ed : List EdgeSig)
    (hf : ∃ i, i < ed.length ∧ qualFirst (ed.getD i default) = true)
    (hl : ∃ i, i < ed.length ∧ qualLast (ed.getD i default) = true) :
    (∃ k, k < ed.length ∧ (scanEdges ed).firstIdx = (k : ℤ)
      ∧ qualFirst (ed.getD k default) = true
      ∧ ∀ j, j < ed.length → qualFirst (ed.getD j default) = true → j ≤ k)
    ∧ (∃ k, k < ed.length ∧ (scanEdges ed).lastIdx = (k : ℤ)
      ∧ qualLast (ed.getD k default) = true
      ∧ ∀ j, j < ed.length → qualLast (ed.getD j default) = true → j ≤ k) := by
  constructor
  · rcases scanEdges_firstIdx ed with ⟨_, hnone⟩ | ⟨k, hk, heq, hq, hlater⟩
    · obtain ⟨i, hi, hqi⟩ := hf
      rw [hnone i hi] at hqi
      cases hqi
    · refine ⟨k, hk, heq, hq, ?_⟩
      intro j hj hqj
      by_contra hgt
      rw [hlater j (by omega) hj] at hqj
      cases hqj
  · rcases scanEdges_lastIdx ed with ⟨_, hnone⟩ | ⟨k, hk, heq, hq, hlater⟩
    · obtain ⟨i, hi, hqi⟩ := hl
      rw [hnone i hi] at hqi
      cases hqi
    · refine ⟨k, hk, heq, hq, ?_⟩
      intro j hj hqj
      by_contra hgt
      rw [hlater j (by omega) hj] at hqj
      cases hqj

/-- Witness for C5: indices 0 and 1 both qualify as FIRST, index 2 as
LAST; the scan keeps the later FIRST candidate, index 1. -/
theorem spec_c5_last_wins_witness :
    ((∃ k, k < (3 : ℕ)
        ∧ (scanEdges [⟨[0], [0], 0, 0, true, false⟩, ⟨[0], [0], 0, 0, true, false⟩,
            ⟨[0], [0], 0, 0, false, true⟩]).firstIdx = (k : ℤ)
        ∧ qualFirst (([⟨[0], [0], 0, 0, true, false⟩, ⟨[0], [0], 0, 0, true, false⟩,
            ⟨[0], [0], 0, 0, false, true⟩] : List EdgeSig).getD k default) = true
        ∧ ∀ j, j < (3 : ℕ)
            → qualFirst (([⟨[0], [0], 0, 0, true, false⟩, ⟨[0], [0], 0, 0, true, false⟩,
                ⟨[0], [0], 0, 0, false, true⟩] : List EdgeSig).getD j default) = true
            → j ≤ k)
      ∧ (∃ k, k < (3 : ℕ)
        ∧ (scanEdges [⟨[0], [0], 0, 0, true, false⟩, ⟨[0], [0], 0, 0, true, false⟩,
            ⟨[0], [0], 0, 0, false, true⟩]).lastIdx = (k : ℤ)
        ∧ qualLast (([⟨[0], [0], 0, 0, true, false⟩, ⟨[0], [0], 0, 0, true, false⟩,
            ⟨[0], [0], 0, 0, false, true⟩] : List EdgeSig).getD k default) = true
        ∧ ∀ j, j < (3 : ℕ)
            → qualLast (([⟨[0], [0], 0, 0, true, false⟩, ⟨[0], [0], 0, 0, true, false⟩,
                ⟨[0], [0], 0, 0, false, true⟩] : List EdgeSig).getD j default) = true
            → j ≤ k))
    ∧ (scanEdges [⟨[0], [0], 0, 0, true, false⟩, ⟨[0], [0], 0, 0, true, false⟩,
        ⟨[0], [0], 0, 0, false, true⟩]).firstIdx = 1
    ∧ (scanEdges [⟨[0], [0], 0, 0, true, false⟩, ⟨[0], [0], 0, 0, true, false⟩,
        ⟨[0], [0], 0, 0, false, true⟩]).lastIdx = 2 :=
  ⟨spec_c5_last_wins
      [⟨[0], [0], 0, 0, true, false⟩, ⟨[0], [0], 0, 0, true, false⟩,
        ⟨[0], [0], 0, 0, false, true⟩]
      ⟨0, by decide, by decide⟩ ⟨2, by decide, by decide⟩,
    by decide, by decide⟩

/-- C3: on the anchored path the base order is `[first, last]` with no
middle index and `[first, m, last]` with one; with exactly two middles
`m0, m1` the two candidate orders are scored by their three adjacent
pair differences and the lower score wins, an exact tie (and in
particular equality of the two finite scores) keeping
`[first, m0, m1, last]`; floating indices follow in every case. -/
theorem spec_c3_anchored (ed : List EdgeSig) (h : anchorFound (scanEdges ed) = true) :
    (middleIndicesOf ed = [] →
      findOptimalOrder ed
        = [(scanEdges ed).firstIdx.toNat, (scanEdges ed).lastIdx.toNat]
            ++ (scanEdges ed).floatingIndices)
    ∧ (∀ m, middleIndicesOf ed = [m] →
      findOptimalOrder ed
        = [(scanEdges ed).firstIdx.toNat, m, (scanEdges ed).lastIdx.toNat]
            ++ (scanEdges ed).floatingIndices)
    ∧ (∀ m0 m1, middleIndicesOf ed = [m0, m1] →
      ∀ q1 q2,
        permScore ed [(scanEdges ed).firstIdx.toNat, m0, m1,
            (scanEdges ed).lastIdx.toNat] = JSNum.val q1 →
        permScore ed [(scanEdges ed).firstIdx.toNat, m1, m0,
            (scanEdges ed).lastIdx.toNat] = JSNum.val q2 →
        (q1 ≤ q2 →
          findOptimalOrder ed
            = [(scanEdges ed).firstIdx.toNat, m0, m1, (scanEdges ed).lastIdx.toNat]
                ++ (scanEdges ed).floatingIndices)
        ∧ (q2 < q1 →
          findOptimalOrder ed
            = [(scanEdges ed).firstIdx.toNat, m1, m0, (scanEdges ed).lastIdx.toNat]
                ++ (scanEdges ed).floatingIndices)) := by
  have hfo : findOptimalOrder ed = anchoredBase ed ++ (scanEdges ed).floatingIndices := by
    rw [findOptimalOrder, if_pos h]
  refine ⟨?_, ?_, ?_⟩
  · intro hm
    rw [hfo]
    simp [anchoredBase, hm]
  · intro m hm
    rw [hfo]
    simp [anchoredBase, hm]
  · intro m0 m1 hm q1 q2 hq1 hq2
    have hs1 : ((pairDiff ed (scanEdges ed).firstIdx.toNat m0).add
        (pairDiff ed m0 m1)).add (pairDiff ed m1 (scanEdges ed).lastIdx.toNat)
        = JSNum.val q1 := by
      rw [← permScore_quad]
      exact hq1
    have hs2 : ((pairDiff ed (scanEdges ed).firstIdx.toNat m1).add
        (pairDiff ed m1 m0)).add (pairDiff ed m0 (scanEdges ed).lastIdx.toNat)
        = JSNum.val q2 := by
      rw [← permScore_quad]
      exact hq2
    have hbase : anchoredBase ed
        = if (JSNum.val q1).le (JSNum.val q2) = true then
            [(scanEdges ed).firstIdx.toNat, m0, m1, (scanEdges ed).lastIdx.toNat]
          else
            [(scanEdges ed).firstIdx.toNat, m1, m0, (scanEdges ed).lastIdx.toNat] := by
      rw [anchoredBase]
      simp only [hm]
      rw [if_neg (by simp), if_neg (by simp)]
      simp only [List.getD_cons_zero, List.getD_cons_succ]
      rw [hs1, hs2]
    constructor
    · intro hle
      rw [hfo, hbase, if_pos (by simp [JSNum.le]; exact hle)]
    · intro hlt
      rw [hfo, hbase, if_neg ?hcond]
      case hcond =>
        simp only [JSNum.le]
        rw [decide_eq_true_eq]
        exact fun hc => absurd hc (not_le.mpr hlt)

/-- Witness for C3, scenario A of the specification: blank-top-only,
no-blank, blank-bottom-only at indices 0, 1, 2 give the order
[0, 1, 2] through the one-middle clause. -/
theorem spec_c3_anchored_witness :
    findOptimalOrder
        [⟨[0], [0], 0, 0, true, false⟩, ⟨[0], [0], 0, 0, false, false⟩,
          ⟨[0], [0], 0, 0, false, true⟩]
      = [(scanEdges [⟨[0], [0], 0, 0, true, false⟩, ⟨[0], [0], 0, 0, false, false⟩,
            ⟨[0], [0], 0, 0, false, true⟩]).firstIdx.toNat, 1,
          (scanEdges [⟨[0], [0], 0, 0, true, false⟩, ⟨[0], [0], 0, 0, false, false⟩,
            ⟨[0], [0], 0, 0, false, true⟩]).lastIdx.toNat]
          ++ (scanEdges [⟨[0], [0], 0, 0, true, false⟩, ⟨[0], [0], 0, 0, false, false⟩,
            ⟨[0], [0], 0, 0, false, true⟩]).floatingIndices
    ∧ findOptimalOrder
        [⟨[0], [0], 0, 0, true, false⟩, ⟨[0], [0], 0, 0, false, false⟩,
          ⟨[0], [0], 0, 0, false, true⟩]
      = [0, 1, 2] :=
  ⟨(spec_c3_anchored
      [⟨[0], [0], 0, 0, true, false⟩, ⟨[0], [0], 0, 0, false, false⟩,
        ⟨[0], [0], 0, 0, false, true⟩]
      (by decide)).2.1 1 (by decide), by decide⟩

/-- C1 (code bug evaluation): with anchors at indices 0 and 4 and the
three middle indices 1, 2, 3, the anchored path uses only the first two
middles, so the returned order [0, 1, 2, 4] silently drops index 3 and
is not a permutation of the five input indices. -/
theorem spec_c1_dropped_middle :
    findOptimalOrder
        [⟨[0], [0], 0, 0, true, false⟩, ⟨[0], [0], 0, 0, false, false⟩,
          ⟨[0], [0], 0, 0, false, false⟩, ⟨[0], [0], 0, 0, false, false⟩,
          ⟨[0], [0], 0, 0, false, true⟩]
      = [0, 1, 2, 4]
    ∧ ([⟨[0], [0], 0, 0, true, false⟩, ⟨[0], [0], 0, 0, false, false⟩,
          ⟨[0], [0], 0, 0, false, false⟩, ⟨[0], [0], 0, 0, false, false⟩,
          ⟨[0], [0], 0, 0, false, true⟩] : List EdgeSig).length = 5
    ∧ (findOptimalOrder
        [⟨[0], [0], 0, 0, true, false⟩, ⟨[0], [0], 0, 0, false, false⟩,
          ⟨[0], [0], 0, 0, false, false⟩, ⟨[0], [0], 0, 0, false, false⟩,
          ⟨[0], [0], 0, 0, false, true⟩]).length = 4 := by
  refine ⟨by decide, by decide, by decide⟩

/-- C2, counterexample: with two non-floating signatures whose
fingerprints are empty, the fallback path is taken and every pairwise
score is NaN, so the returned order [0, 1] does not satisfy the claimed
comparison against the permutation [1, 0] (nor against itself): a NaN
comparison is false in JavaScript. -/
theorem spec_c2_counterexample :
    anchorFound (scanEdges
        [⟨[], [], 0, 0, false, false⟩, ⟨[], [], 0, 0, false, false⟩]) = false
    ∧ findOptimalOrder [⟨[], [], 0, 0, false, false⟩, ⟨[], [], 0, 0, false, false⟩]
        = [0, 1]
    ∧ List.Perm [1, 0] (nonFloatingIndices
        [⟨[], [], 0, 0, false, false⟩, ⟨[], [], 0, 0, false, false⟩])
    ∧ JSNum.le
        (permScore [⟨[], [], 0, 0, false, false⟩, ⟨[], [], 0, 0, false, false⟩] [0, 1])
        (permScore [⟨[], [], 0, 0, false, false⟩, ⟨[], [], 0, 0, false, false⟩] [1, 0])
        = false
    ∧ permScore [⟨[], [], 0, 0, false, false⟩, ⟨[], [], 0, 0, false, false⟩] [0, 1]
        = JSNum.nan := by
  refine ⟨by decide, by decide, by decide, by decide, by decide⟩

/-- C2 as amended: on the fallback path, whenever every pairwise
difference between non-floating indices is a finite number (no NaN, in
particular no empty fingerprint among the compared pairs), the returned
order is the fallback winner followed by the floating block, its total
adjacent-pair score is less than or equal to the score of every
permutation of the non-floating index set, and the winner is the
earliest generated permutation attaining its score. -/
theorem spec_c2_fallback_min (ed : List EdgeSig)
    (hfb : anchorFound (scanEdges ed) = false)
    (hval : ∀ i ∈ nonFloatingIndices ed, ∀ j ∈ nonFloatingIndices ed,
      (pairDiff ed i j).isVal = true) :
    findOptimalOrder ed = fallbackBest ed ++ (scanEdges ed).floatingIndices
    ∧ (∀ p, p.Perm (nonFloatingIndices ed) →
        JSNum.le (permScore ed (fallbackBest ed)) (permScore ed p) = true)
    ∧ (getPermutations (nonFloatingIndices ed)).find?
          (fun p => decide (permScore ed p = permScore ed (fallbackBest ed)))
        = some (fallbackBest ed) := by
  have hscore_val : ∀ p, p.Perm (nonFloatingIndices ed) →
      (permScore ed p).isVal = true := by
    intro p hp
    refine permScore_isVal ?_
    intro i hi j hj
    exact hval i (hp.mem_iff.mp hi) j (hp.mem_iff.mp hj)
  have hvps : ∀ p ∈ getPermutations (nonFloatingIndices ed),
      (permScore ed p).isVal = true :=
    fun p hp => hscore_val p (getPermutations_mem_perm hp)
  have hfo : findOptimalOrder ed = fallbackBest ed ++ (scanEdges ed).floatingIndices := by
    rw [findOptimalOrder, if_neg (by rw [hfb]; exact Bool.false_ne_true)]
  rcases selectLoop_spec (permScore ed) (getPermutations (nonFloatingIndices ed))
      (nonFloatingIndices ed) JSNum.inf hvps with
    ⟨heq, hnone⟩ | ⟨pre, best, post, hps, heq, hbs, hpre, hpost⟩
  · exfalso
    have hmem : nonFloatingIndices ed ∈ getPermutations (nonFloatingIndices ed) :=
      getPermutations_complete (List.Perm.refl _)
    obtain ⟨q, hq⟩ := JSNum.isVal_iff.mp (hvps _ hmem)
    have hcontra := hnone _ hmem
    rw [hq, JSNum.lt_val_inf] at hcontra
    simp at hcontra
  · have hbest : fallbackBest ed = best := by
      rw [fallbackBest_eq_selectLoop, heq]
    have hbestval : (permScore ed best).isVal = true := by
      rw [← hbest]
      exact hscore_val _ (fallbackBest_perm ed)
    refine ⟨hfo, ?_, ?_⟩
    · intro p hp
      have hpmem : p ∈ getPermutations (nonFloatingIndices ed) :=
        getPermutations_complete hp
      rw [hps] at hpmem
      rw [hbest]
      rcases List.mem_append.mp hpmem with hx | hx
      · exact JSNum.le_of_lt_js (hpre p hx)
      · rcases List.mem_cons.mp hx with rfl | hx2
        · exact JSNum.le_refl_val hbestval
        · exact JSNum.le_of_not_lt (hscore_val p hp) hbestval (hpost p hx2)
    · rw [hbest, hps, List.find?_append]
      have hprenone : pre.find?
          (fun p => decide (permScore ed p = permScore ed best)) = none := by
        rw [List.find?_eq_none]
        intro x hx
        have hlt := hpre x hx
        have hne := JSNum.ne_of_lt_js hlt
        simp only [decide_eq_true_eq]
        exact fun hc => hne (by rw [hc])
      rw [hprenone, Option.none_or, List.find?_cons,
        show decide (permScore ed best = permScore ed best) = true from
          decide_eq_true rfl]

/-- Witness for C2 at two plain signatures with one-pixel fingerprints:
the fallback winner scores no worse than the permutation [1, 0] and the
final order is the winner followed by the (empty) floating block. -/
theorem spec_c2_fallback_min_witness :
    JSNum.le
        (permScore [⟨[0], [0], 0, 0, false, false⟩, ⟨[0], [0], 0, 0, false, false⟩]
          (fallbackBest [⟨[0], [0], 0, 0, false, false⟩, ⟨[0], [0], 0, 0, false, false⟩]))
        (permScore [⟨[0], [0], 0, 0, false, false⟩, ⟨[0], [0], 0, 0, false, false⟩] [1, 0])
        = true
    ∧ findOptimalOrder [⟨[0], [0], 0, 0, false, false⟩, ⟨[0], [0], 0, 0, false, false⟩]
        = fallbackBest [⟨[0], [0], 0, 0, false, false⟩, ⟨[0], [0], 0, 0, false, false⟩]
          ++ (scanEdges [⟨[0], [0], 0, 0, false, false⟩,
              ⟨[0], [0], 0, 0, false, false⟩]).floatingIndices :=
  ⟨(spec_c2_fallback_min
      [⟨[0], [0], 0, 0, false, false⟩, ⟨[0], [0], 0, 0, false, false⟩]
      (by decide) (by decide)).2.1 [1, 0] (by decide),
    (spec_c2_fallback_min
      [⟨[0], [0], 0, 0, false, false⟩, ⟨[0], [0], 0, 0, false, false⟩]
      (by decide) (by decide)).1⟩

/-- C6: for an image of positive height the scan window is
`min(floor(height/10), 50)`; the recorded content-top row is the first
non-blank row inside the window, or the window size if the whole window
is blank; the content-bottom row is the highest non-blank row of the
bottom window, or `height - 1 - W` if that window is all blank; and the
blank-edge flags are exactly `topY > 0` and `bottomY < height - 1`. -/
theorem spec_c6_letterbox_scan (img : JSImage) (_hpos : 1 ≤ img.height) :
    letterboxWindow img.height = min (img.height / 10) 50
    ∧ ((∃ y, y < letterboxWindow img.height ∧ isRowBlank (img.row y) = false
          ∧ topYOf img = y ∧ ∀ z < y, isRowBlank (img.row z) = true)
        ∨ (topYOf img = letterboxWindow img.height
            ∧ ∀ z < letterboxWindow img.height, isRowBlank (img.row z) = true))
    ∧ ((∃ y : ℤ, (img.height : ℤ) - letterboxWindow img.height ≤ y
          ∧ y ≤ (img.height : ℤ) - 1
          ∧ isRowBlank (img.row y.toNat) = false
          ∧ bottomYOf img = y
          ∧ ∀ z : ℤ, y < z → z ≤ (img.height : ℤ) - 1
              → isRowBlank (img.row z.toNat) = true)
        ∨ (bottomYOf img = (img.height : ℤ) - 1 - letterboxWindow img.height
            ∧ ∀ z : ℤ, (img.height : ℤ) - letterboxWindow img.height ≤ z
                → z ≤ (img.height : ℤ) - 1 → isRowBlank (img.row z.toNat) = true))
    ∧ ((getEdgePixels img).hasBlankTop = true ↔ 0 < topYOf img)
    ∧ ((getEdgePixels img).hasBlankBottom = true
        ↔ bottomYOf img < (img.height : ℤ) - 1) := by
  refine ⟨rfl, ?_, ?_, ?_, ?_⟩
  · rcases findRange_spec (letterboxWindow img.height)
        (fun y => !isRowBlank (img.row y)) with ⟨hnone, hall⟩ | ⟨y, hy, hsome, hpy, hbefore⟩
    · right
      refine ⟨by rw [topYOf, hnone], ?_⟩
      intro z hz
      have := hall z hz
      rwa [Bool.not_eq_false'] at this
    · left
      refine ⟨y, hy, ?_, by rw [topYOf, hsome], ?_⟩
      · have := hpy
        rwa [Bool.not_eq_true'] at this
      · intro z hz
        have := hbefore z hz
        rwa [Bool.not_eq_false'] at this
  · rcases findRange_spec (letterboxWindow img.height)
        (fun k => !isRowBlank (img.row ((img.height : ℤ) - 1 - k).toNat)) with
      ⟨hnone, hall⟩ | ⟨k, hk, hsome, hpk, hbefore⟩
    · right
      refine ⟨by rw [bottomYOf, hnone], ?_⟩
      intro z hz1 hz2
      have hz0 : 0 ≤ (img.height : ℤ) - 1 - z := by omega
      have hk2 : ((((img.height : ℤ) - 1 - z).toNat : ℤ)) = (img.height : ℤ) - 1 - z :=
        Int.toNat_of_nonneg hz0
      have hlt : ((img.height : ℤ) - 1 - z).toNat < letterboxWindow img.height := by
        omega
      have hb := hall _ hlt
      rw [Bool.not_eq_false'] at hb
      have harg : (img.height : ℤ) - 1 - (((img.height : ℤ) - 1 - z).toNat : ℤ) = z := by
        omega
      rwa [harg] at hb
    · left
      refine ⟨(img.height : ℤ) - 1 - k, by omega, by omega, ?_,
        by rw [bottomYOf, hsome], ?_⟩
      · have := hpk
        rwa [Bool.not_eq_true'] at this
      · intro z hz1 hz2
        have hz0 : 0 ≤ (img.height : ℤ) - 1 - z := by omega
        have hk2 : ((((img.height : ℤ) - 1 - z).toNat : ℤ)) = (img.height : ℤ) - 1 - z :=
          Int.toNat_of_nonneg hz0
        have hlt : ((img.height : ℤ) - 1 - z).toNat < k := by omega
        have hb := hbefore _ hlt
        rw [Bool.not_eq_false'] at hb
        have harg : (img.height : ℤ) - 1 - (((img.height : ℤ) - 1 - z).toNat : ℤ) = z := by
          omega
        rwa [harg] at hb
  · show decide (0 < topYOf img) = true ↔ _
    rw [decide_eq_true_eq]
  · show decide (bottomYOf img < (img.height : ℤ) - 1) = true ↔ _
    rw [decide_eq_true_eq]

/-- Witness for C6 at a 30-row image whose first two rows are blank: the
window is 3, the content-top row is 2 and only the top flag is set. -/
theorem spec_c6_letterbox_scan_witness :
    ((getEdgePixels ⟨30, fun y =>
        if y < 2 then [0, 0, 0, 255, 0, 0, 0, 255]
        else [0, 0, 0, 255, 200, 0, 0, 255]⟩).hasBlankTop = true
      ↔ 0 < topYOf ⟨30, fun y =>
        if y < 2 then [0, 0, 0, 255, 0, 0, 0, 255]
        else [0, 0, 0, 255, 200, 0, 0, 255]⟩)
    ∧ topYOf ⟨30, fun y =>
        if y < 2 then [0, 0, 0, 255, 0, 0, 0, 255]
        else [0, 0, 0, 255, 200, 0, 0, 255]⟩ = 2
    ∧ bottomYOf ⟨30, fun y =>
        if y < 2 then [0, 0, 0, 255, 0, 0, 0, 255]
        else [0, 0, 0, 255, 200, 0, 0, 255]⟩ = 29
    ∧ (getEdgePixels ⟨30, fun y =>
        if y < 2 then [0, 0, 0, 255, 0, 0, 0, 255]
        else [0, 0, 0, 255, 200, 0, 0, 255]⟩).hasBlankTop = true
    ∧ (getEdgePixels ⟨30, fun y =>
        if y < 2 then [0, 0, 0, 255, 0, 0, 0, 255]
        else [0, 0, 0, 255, 200, 0, 0, 255]⟩).hasBlankBottom = false :=
  ⟨(spec_c6_letterbox_scan ⟨30, fun y =>
      if y < 2 then [0, 0, 0, 255, 0, 0, 0, 255]
      else [0, 0, 0, 255, 200, 0, 0, 255]⟩ (by decide)).2.2.2.1,
    by decide, by decide, by decide, by decide⟩
